import Mathlib

/-!
Verification of the autobuild rebuild planner.

The development shallowly embeds the planner: the state/diff layer
(`state` package: `Changed`, `ValidTPath`, `LoadState`), the graph
operations the `push` command relies on (`LiftGraph`, topological
sorting, strongly-connected-component diagnosis), and the control flow
of `runPush` itself.  Machine integers are modelled as `Int`, Go slices
as `List`, and the Go name-index map as a `String → Option Nat`
function (Go's two-valued map lookup).
-/

namespace Autobuild

/-- A build unit (`common.Package`): name, opaque version string,
integer release counter, and the declared build-dependency names. -/
structure Package where
  name : String
  version : String
  release : Int
  buildDeps : List String
  deriving DecidableEq, Repr

/-- The all-zero package, the Go zero value of `common.Package`. -/
def emptyPackage : Package := ⟨"", "", 0, []⟩

/-- Modelled from the spec: `common.Package.Resolve` (code not in the
visible sources) checks that every declared build-dependency name
resolves to a position in the given name index. -/
def Package.Resolve (pkg : Package) (idxMap : String → Option Nat) : Bool :=
  pkg.buildDeps.all fun d => (idxMap d).isSome

/-- A directed dependency graph over package positions: an edge
`(u, v)` means "u depends on v" (spec §4.3). -/
structure Graph where
  nodes : List Nat
  edges : List (Nat × Nat)
  deriving DecidableEq, Repr

/-- A per-package comparison result (`state.Diff`).  Field defaults are
the Go zero values: the `Changed` code constructs new-package diffs
without mentioning the old-side fields, leaving them zero. -/
structure Diff where
  Idx : Nat := 0
  OldIdx : Nat := 0
  RelNum : Int := 0
  OldRelNum : Int := 0
  Ver : String := ""
  OldVer : String := ""
  deriving DecidableEq, Repr

/-- Modelled from the spec: `Diff.IsNewRel` (code not in the visible
sources), the *new-release* classification `new.release > old.release`. -/
def Diff.IsNewRel (d : Diff) : Bool := decide (d.OldRelNum < d.RelNum)

/-- Modelled from the spec: `Diff.IsSameRel` (code not in the visible
sources), release unchanged. -/
def Diff.IsSameRel (d : Diff) : Bool := decide (d.OldRelNum = d.RelNum)

/-- Modelled from the spec: `Diff.IsSame` (code not in the visible
sources), release and version both unchanged. -/
def Diff.IsSame (d : Diff) : Bool :=
  decide (d.OldRelNum = d.RelNum) && decide (d.OldVer = d.Ver)

/-- Modelled from the spec: `Diff.IsDowngrade` (code not in the visible
sources), the *downgrade* classification `new.release < old.release`. -/
def Diff.IsDowngrade (d : Diff) : Bool := decide (d.RelNum < d.OldRelNum)

/-- A snapshot (`state.State` interface): ordered package sequence,
name → position lookup, and the dependency graph over positions. -/
structure State where
  packages : List Package
  nameToSrcIdx : String → Option Nat
  depGraph : Graph

/-- The body of the `Changed` loop for one package of the new snapshot:
emit a zero-old-side diff when the name is absent from `old`, a
two-sided diff when release or version differs, nothing otherwise. -/
def diffOf (old : State) (idx : Nat) (pkg : Package) : Option Diff :=
  match old.nameToSrcIdx pkg.name with
  | none =>
      some { Idx := idx, RelNum := pkg.release, Ver := pkg.version }
  | some oldIdx =>
      let oldPkg := old.packages.getD oldIdx emptyPackage
      if oldPkg.release ≠ pkg.release ∨ oldPkg.version ≠ pkg.version then
        some { Idx := idx, OldIdx := oldIdx, RelNum := pkg.release,
               OldRelNum := oldPkg.release, Ver := pkg.version,
               OldVer := oldPkg.version }
      else
        none

/-- The `Changed` iteration over the new snapshot's packages, carrying
the running position `idx`. -/
def changedAux (old : State) : List Package → Nat → List Diff
  | [], _ => []
  | pkg :: rest, idx =>
      match diffOf old idx pkg with
      | none => changedAux old rest (idx + 1)
      | some d => d :: changedAux old rest (idx + 1)

/-- `state.Changed`: diff the two snapshots in the new snapshot's
package order. -/
def Changed (old cur : State) : List Diff :=
  changedAux old cur.packages 0

/-- Splitting a character list at every occurrence of `sep`, the
semantics of Go's `strings.Split` for a one-character separator. -/
def splitChars (sep : Char) : List Char → List (List Char)
  | [] => [[]]
  | c :: rest =>
      let r := splitChars sep rest
      if c = sep then [] :: r
      else (c :: r.headD []) :: r.tail

/-- Go's `strings.Split(s, sep)` for a one-character separator. -/
def stringsSplit (s : String) (sep : Char) : List String :=
  (splitChars sep s.data).map String.mk

/-- `state.ValidTPath`: at most two `:`-separated fields and a
recognized kind as the first field. -/
def ValidTPath (tpath : String) : Bool :=
  let splitted := stringsSplit tpath ':'
  if splitted.length > 2 then
    false
  else
    ["src", "bin", "repo"].contains (splitted.headD "")

/-- Observable outcome of `state.LoadState`: which loader is invoked
with which path argument, the invalid-tpath error, or the Go runtime
panic from indexing `splitted[1]` when it does not exist. -/
inductive LoadOutcome where
  | loaded (kind : String) (path : String)
  | invalidTPath
  | indexOutOfRange
  deriving DecidableEq, Repr

/-- `state.LoadState`: reject invalid tpaths, otherwise dispatch on the
kind field and hand `splitted[1]` to the selected loader.  Every
dispatch branch indexes `splitted[1]`, modelled by the single `[1]?`
access; a missing second field is the Go index-out-of-range panic. -/
def LoadState (tpath : String) : LoadOutcome :=
  if ¬ ValidTPath tpath then
    .invalidTPath
  else
    let splitted := stringsSplit tpath ':'
    match splitted[1]? with
    | none => .indexOutOfRange
    | some path =>
        if splitted.headD "" = "src" then .loaded "src" path
        else if splitted.headD "" = "bin" then .loaded "bin" path
        else .loaded "repo" path

/-- The directed-edge relation of a graph. -/
def edgeRel (g : Graph) (u v : Nat) : Prop := (u, v) ∈ g.edges

/-- Structural well-formedness of a dependency graph: every edge
endpoint is a node and the node list has no duplicates (one node per
package position, spec §3). -/
def GraphWF (g : Graph) : Prop :=
  (∀ e ∈ g.edges, e.1 ∈ g.nodes ∧ e.2 ∈ g.nodes) ∧ g.nodes.Nodup

/-- Acyclicity: no node reaches itself through a nonempty edge path. -/
def Acyclic (g : Graph) : Prop :=
  ∀ u, ¬ Relation.TransGen (edgeRel g) u u

/-- Modelled from the spec: `utils.LiftGraph` (code not in the visible
sources) returns the induced subgraph on the positions satisfying the
predicate — nodes filtered by the predicate, and exactly the original
edges whose two endpoints both satisfy it. -/
def LiftGraph (g : Graph) (pred : Nat → Bool) : Graph :=
  { nodes := g.nodes.filter pred,
    edges := g.edges.filter fun e => pred e.1 && pred e.2 }

/-- A node of `remaining` is ready when none of its out-edges points
back into `remaining`: all its dependencies are already emitted. -/
def readyNode (edges : List (Nat × Nat)) (remaining : List Nat) (u : Nat) : Bool :=
  edges.all fun e => !(e.1 == u && remaining.contains e.2)

/-- Kahn-style elimination: repeatedly emit a ready node (all of its
dependencies already emitted) and drop it from the remaining set; fail
when no node is ready. -/
def topoAux (edges : List (Nat × Nat)) : Nat → List Nat → Option (List Nat)
  | _, [] => some []
  | 0, _ :: _ => none
  | fuel + 1, u :: rest =>
      match (u :: rest).find? (readyNode edges (u :: rest)) with
      | none => none
      | some v =>
          (topoAux edges fuel ((u :: rest).erase v)).map fun order => v :: order

/-- Modelled from the spec: the build-order planner's topological sort
(the `graph.TopologicalSort` collaborator, code not in the visible
sources) — dependencies before dependents, failure iff no full
elimination order exists. -/
def TopologicalSort (g : Graph) : Option (List Nat) :=
  topoAux g.edges g.nodes.length g.nodes

theorem reach_in_nodes (g : Graph) (hwf : GraphWF g) {u v : Nat}
    (h : Relation.ReflTransGen (edgeRel g) u v) : v = u ∨ v ∈ g.nodes := by
  induction h with
  | refl => exact Or.inl rfl
  | tail _ hstep _ => exact Or.inr ((hwf.1 _ hstep).2)

theorem ranking_exists (g : Graph) (hwf : GraphWF g) (hacyc : Acyclic g) :
    ∃ f : Nat → Nat, ∀ e ∈ g.edges, f e.2 < f e.1 := by
  classical
  refine ⟨fun u => {v | Relation.ReflTransGen (edgeRel g) u v}.ncard, ?_⟩
  intro e he
  have hfin : ∀ w, {v | Relation.ReflTransGen (edgeRel g) w v}.Finite := by
    intro w
    refine Set.Finite.subset ((g.nodes.finite_toSet).insert w) ?_
    intro v hv
    rcases reach_in_nodes g hwf hv with h | h
    · exact h ▸ Set.mem_insert _ _
    · exact Set.mem_insert_of_mem _ h
  refine Set.ncard_lt_ncard ?_ (hfin e.1)
  constructor
  · intro v hv
    exact Relation.ReflTransGen.head he hv
  · intro hsub
    have h1 : e.1 ∈ {v | Relation.ReflTransGen (edgeRel g) e.1 v} :=
      Relation.ReflTransGen.refl
    have h2 : Relation.ReflTransGen (edgeRel g) e.2 e.1 := hsub h1
    exact hacyc e.1 (Relation.TransGen.head' he h2)

theorem ready_exists (edges : List (Nat × Nat)) (f : Nat → Nat)
    (hf : ∀ e ∈ edges, f e.2 < f e.1) (remaining : List Nat)
    (hne : remaining ≠ []) :
    ∃ u ∈ remaining, readyNode edges remaining u = true := by
  obtain ⟨m, hm⟩ : ∃ m, m ∈ List.argmin f remaining := by
    rcases h : List.argmin f remaining with _ | m
    · exact absurd (List.argmin_eq_none.mp h) hne
    · exact ⟨m, Option.mem_def.mpr rfl⟩
  refine ⟨m, List.argmin_mem hm, ?_⟩
  simp only [readyNode, List.all_eq_true]
  intro e he
  by_contra hcon
  simp at hcon
  obtain ⟨h1, h2⟩ := hcon
  have hlt : f e.2 < f m := h1 ▸ hf e he
  exact absurd (List.le_of_mem_argmin h2 hm) (not_le.mpr hlt)

theorem topoAux_some (edges : List (Nat × Nat)) (f : Nat → Nat)
    (hf : ∀ e ∈ edges, f e.2 < f e.1) :
    ∀ fuel remaining, remaining.length ≤ fuel →
      ∃ order, topoAux edges fuel remaining = some order := by
  intro fuel
  induction fuel with
  | zero =>
      intro remaining h
      match remaining with
      | [] => exact ⟨[], rfl⟩
      | _ :: _ => simp at h
  | succ n ih =>
      intro remaining h
      match remaining with
      | [] => exact ⟨[], rfl⟩
      | u :: rest =>
          obtain ⟨v, hv, hready⟩ :=
            ready_exists edges f hf (u :: rest) (List.cons_ne_nil u rest)
          obtain ⟨w, hw⟩ : ∃ w, (u :: rest).find? (readyNode edges (u :: rest)) = some w := by
            have : ((u :: rest).find? (readyNode edges (u :: rest))).isSome :=
              List.find?_isSome.mpr ⟨v, hv, hready⟩
            exact Option.isSome_iff_exists.mp this
          have hwm : w ∈ u :: rest := List.mem_of_find?_eq_some hw
          have hlen : ((u :: rest).erase w).length ≤ n := by
            rw [List.length_erase_of_mem hwm]
            simpa using Nat.le_of_succ_le_succ h
          obtain ⟨order, horder⟩ := ih _ hlen
          exact ⟨w :: order, by simp [topoAux, hw, horder]⟩

theorem topoAux_perm (edges : List (Nat × Nat)) :
    ∀ fuel remaining order, topoAux edges fuel remaining = some order →
      order.Perm remaining := by
  intro fuel
  induction fuel with
  | zero =>
      intro remaining order h
      match remaining with
      | [] => simp only [topoAux, Option.some_inj] at h; simp [← h]
      | _ :: _ => simp [topoAux] at h
  | succ n ih =>
      intro remaining order h
      match remaining with
      | [] => simp only [topoAux, Option.some_inj] at h; simp [← h]
      | u :: rest =>
          rcases hfind : (u :: rest).find? (readyNode edges (u :: rest)) with _ | v
          · simp [topoAux, hfind] at h
          · simp only [topoAux, hfind, Option.map_eq_some'] at h
            obtain ⟨tail0, htail, horder⟩ := h
            have hperm := ih _ _ htail
            have hvm : v ∈ u :: rest := List.mem_of_find?_eq_some hfind
            rw [← horder]
            exact (hperm.cons v).trans (List.perm_cons_erase hvm).symm

theorem topoAux_prec (edges : List (Nat × Nat)) :
    ∀ fuel remaining order, topoAux edges fuel remaining = some order →
      ∀ e ∈ edges, e.1 ∈ remaining → e.2 ∈ remaining →
        [e.2, e.1].Sublist order := by
  intro fuel
  induction fuel with
  | zero =>
      intro remaining order h e he h1 h2
      match remaining with
      | [] => simp at h1
      | _ :: _ => simp [topoAux] at h
  | succ n ih =>
      intro remaining order h e he h1 h2
      match remaining with
      | [] => simp at h1
      | u :: rest =>
          rcases hfind : (u :: rest).find? (readyNode edges (u :: rest)) with _ | v
          · simp [topoAux, hfind] at h
          · simp only [topoAux, hfind, Option.map_eq_some'] at h
            obtain ⟨tail0, htail, horder⟩ := h
            have hready : readyNode edges (u :: rest) v = true :=
              List.find?_some hfind
            simp only [readyNode, List.all_eq_true] at hready
            have hready' : ¬ (e.1 = v ∧ e.2 ∈ u :: rest) := by
              have h' := hready e he
              intro hc
              simp [hc.1, hc.2] at h'
            have hne1 : e.1 ≠ v := fun hc => hready' ⟨hc, h2⟩
            have h1e : e.1 ∈ (u :: rest).erase v :=
              (List.mem_erase_of_ne hne1).mpr h1
            subst horder
            by_cases hv2 : e.2 = v
            · subst hv2
              apply List.Sublist.cons₂
              rw [List.singleton_sublist]
              exact ((topoAux_perm edges n _ _ htail).mem_iff).mpr h1e
            · have h2e : e.2 ∈ (u :: rest).erase v :=
                (List.mem_erase_of_ne hv2).mpr h2
              exact (ih _ _ htail e he h1e h2e).cons v

theorem liftGraph_wf (g : Graph) (pred : Nat → Bool) (hwf : GraphWF g) :
    GraphWF (LiftGraph g pred) := by
  constructor
  · intro e he
    simp only [LiftGraph, List.mem_filter, Bool.and_eq_true] at he ⊢
    exact ⟨⟨(hwf.1 e he.1).1, he.2.1⟩, ⟨(hwf.1 e he.1).2, he.2.2⟩⟩
  · exact hwf.2.filter pred

theorem acyclic_of_ranking (g : Graph) (f : Nat → Nat)
    (hf : ∀ e ∈ g.edges, f e.2 < f e.1) : Acyclic g := by
  have hlt : ∀ u v, Relation.TransGen (edgeRel g) u v → f v < f u := by
    intro u v h
    induction h with
    | single hstep => exact hf _ hstep
    | tail _ hstep ih => exact lt_trans (hf _ hstep) ih
  intro u hu
  exact lt_irrefl _ (hlt u u hu)

/-- C1: for an acyclic lifted subgraph, the computed build order
contains every node of the subgraph exactly once (it is a permutation
of the subgraph's nodes, counting each node once and absent positions
zero times), and for every edge `u -> v` of the subgraph (u depends on
v), `v` appears strictly before `u` in the order. -/
theorem build_order_complete_and_respects_deps (depG : Graph) (pred : Nat → Bool)
    (hwf : GraphWF depG) (hacyc : Acyclic (LiftGraph depG pred)) :
    ∃ order, TopologicalSort (LiftGraph depG pred) = some order ∧
      order.Perm (LiftGraph depG pred).nodes ∧
      (∀ v ∈ (LiftGraph depG pred).nodes, order.count v = 1) ∧
      (∀ v, v ∉ (LiftGraph depG pred).nodes → order.count v = 0) ∧
      ∀ e ∈ (LiftGraph depG pred).edges, [e.2, e.1].Sublist order := by
  have hlwf := liftGraph_wf depG pred hwf
  obtain ⟨f, hf⟩ := ranking_exists _ hlwf hacyc
  obtain ⟨order, horder⟩ := topoAux_some (LiftGraph depG pred).edges f hf
    (LiftGraph depG pred).nodes.length (LiftGraph depG pred).nodes le_rfl
  have hperm : order.Perm (LiftGraph depG pred).nodes :=
    topoAux_perm _ _ _ _ horder
  refine ⟨order, horder, hperm, ?_, ?_, ?_⟩
  · intro v hv
    rw [hperm.count_eq]
    exact List.count_eq_one_of_mem hlwf.2 hv
  · intro v hv
    rw [hperm.count_eq]
    exact List.count_eq_zero_of_not_mem hv
  · intro e he
    exact topoAux_prec _ _ _ _ horder e he ((hlwf.1 e he).1) ((hlwf.1 e he).2)

/-- Witness for C1 on the two-node lifted subgraph of scenario D:
node 1 depends on node 0, the order exists and is a permutation putting
the dependency first. -/
theorem build_order_complete_and_respects_deps_witness :
    GraphWF (Graph.mk [0, 1] [(1, 0)]) ∧
    Acyclic (LiftGraph (Graph.mk [0, 1] [(1, 0)]) (fun _ => true)) ∧
    ∃ order, TopologicalSort (LiftGraph (Graph.mk [0, 1] [(1, 0)]) (fun _ => true)) = some order ∧
      order.Perm (LiftGraph (Graph.mk [0, 1] [(1, 0)]) (fun _ => true)).nodes ∧
      (∀ v ∈ (LiftGraph (Graph.mk [0, 1] [(1, 0)]) (fun _ => true)).nodes, order.count v = 1) ∧
      (∀ v, v ∉ (LiftGraph (Graph.mk [0, 1] [(1, 0)]) (fun _ => true)).nodes → order.count v = 0) ∧
      ∀ e ∈ (LiftGraph (Graph.mk [0, 1] [(1, 0)]) (fun _ => true)).edges,
        [e.2, e.1].Sublist order := by
  have hwf : GraphWF (Graph.mk [0, 1] [(1, 0)]) := by
    constructor
    · decide
    · decide
  have hacyc : Acyclic (LiftGraph (Graph.mk [0, 1] [(1, 0)]) (fun _ => true)) :=
    acyclic_of_ranking _ (fun n => n) (by decide)
  exact ⟨hwf, hacyc, build_order_complete_and_respects_deps _ _ hwf hacyc⟩

/-- C2: `LiftGraph` returns the induced subgraph on the positions
satisfying the predicate — a position is a node of the result iff it is
a node of the input satisfying the predicate, an edge is present iff
both endpoints satisfy the predicate and the edge is in the input, and
lifting twice with the same predicate equals lifting once. -/
theorem liftGraph_induced_subgraph (g : Graph) (pred : Nat → Bool) :
    (∀ v, v ∈ (LiftGraph g pred).nodes ↔ v ∈ g.nodes ∧ pred v = true) ∧
    (∀ u v, (u, v) ∈ (LiftGraph g pred).edges ↔
      pred u = true ∧ pred v = true ∧ (u, v) ∈ g.edges) ∧
    LiftGraph (LiftGraph g pred) pred = LiftGraph g pred := by
  refine ⟨?_, ?_, ?_⟩
  · intro v
    simp [LiftGraph, List.mem_filter]
  · intro u v
    simp only [LiftGraph, List.mem_filter, Bool.and_eq_true]
    tauto
  · simp only [LiftGraph]
    congr 1
    · rw [List.filter_filter]
      apply List.filter_congr
      intro a _
      simp
    · rw [List.filter_filter]
      apply List.filter_congr
      intro a _
      simp

/-- One expansion of a reached-node set: keep the set and add the head
of every edge leaving it. -/
def reachStep (edges : List (Nat × Nat)) (s : List Nat) : List Nat :=
  (s ++ (edges.filter fun e => s.contains e.1).map Prod.snd).dedup

/-- Iterated expansion of a reached-node set. -/
def reachIter (edges : List (Nat × Nat)) : Nat → List Nat → List Nat
  | 0, s => s
  | k + 1, s => reachStep edges (reachIter edges k s)

/-- Decidable reachability: `v` is reached from `u` after saturating
the expansion (one more round than there are nodes). -/
def reachesB (g : Graph) (u v : Nat) : Bool :=
  (reachIter g.edges (g.nodes.length + 1) [u]).contains v

/-- Modelled from the spec: the strongly connected component of `u`
(the `graph.StronglyConnectedComponents` collaborator, code not in the
visible sources) — the nodes mutually reachable with `u`. -/
def sccOf (g : Graph) (u : Nat) : List Nat :=
  g.nodes.filter fun v => reachesB g u v && reachesB g v u

/-- Modelled from the spec: the list of strongly connected components
of a graph, one per node, deduplicated. -/
def sccs (g : Graph) : List (List Nat) :=
  (g.nodes.map (sccOf g)).dedup

theorem mem_reachStep {edges : List (Nat × Nat)} {s : List Nat} {v : Nat} :
    v ∈ reachStep edges s ↔ v ∈ s ∨ ∃ u ∈ s, (u, v) ∈ edges := by
  simp only [reachStep, List.mem_dedup, List.mem_append, List.mem_map,
    List.mem_filter, List.contains, List.elem_eq_mem, decide_eq_true_eq]
  constructor
  · rintro (h | ⟨e, ⟨he, h1⟩, h2⟩)
    · exact Or.inl h
    · subst h2
      exact Or.inr ⟨e.1, h1, by simpa using he⟩
  · rintro (h | ⟨u, hu, he⟩)
    · exact Or.inl h
    · exact Or.inr ⟨(u, v), ⟨he, hu⟩, rfl⟩

theorem reachStep_subset {edges : List (Nat × Nat)} {s t : List Nat}
    (h : s ⊆ t) : reachStep edges s ⊆ reachStep edges t := by
  intro v hv
  rcases mem_reachStep.mp hv with h' | ⟨u, hu, he⟩
  · exact mem_reachStep.mpr (Or.inl (h h'))
  · exact mem_reachStep.mpr (Or.inr ⟨u, h hu, he⟩)

theorem self_subset_reachStep {edges : List (Nat × Nat)} {s : List Nat} :
    s ⊆ reachStep edges s :=
  fun _ hv => mem_reachStep.mpr (Or.inl hv)

theorem reachIter_mono (edges : List (Nat × Nat)) (s : List Nat) :
    ∀ {k m : Nat}, k ≤ m → reachIter edges k s ⊆ reachIter edges m s := by
  intro k m hkm
  induction hkm with
  | refl => exact fun _ h => h
  | step _ ih => exact fun v hv => self_subset_reachStep (ih hv)

theorem reach_sound (g : Graph) :
    ∀ (k : Nat) (u v : Nat), v ∈ reachIter g.edges k [u] →
      Relation.ReflTransGen (edgeRel g) u v := by
  intro k
  induction k with
  | zero =>
      intro u v hv
      simp only [reachIter, List.mem_singleton] at hv
      exact hv ▸ Relation.ReflTransGen.refl
  | succ n ih =>
      intro u v hv
      rcases mem_reachStep.mp hv with h | ⟨w, hw, he⟩
      · exact ih u v h
      · exact (ih u w hw).tail he

theorem reachIter_subset_nodes (g : Graph)
    (hwf : ∀ e ∈ g.edges, e.2 ∈ g.nodes) :
    ∀ (k : Nat) (u : Nat), reachIter g.edges k [u] ⊆ u :: g.nodes := by
  intro k
  induction k with
  | zero =>
      intro u v hv
      simp only [reachIter, List.mem_singleton] at hv
      exact hv ▸ List.mem_cons_self u g.nodes
  | succ n ih =>
      intro u v hv
      rcases mem_reachStep.mp hv with h | ⟨w, _, he⟩
      · exact ih u h
      · exact List.mem_cons_of_mem u (hwf (w, v) he)

theorem reachIter_nodup (edges : List (Nat × Nat)) :
    ∀ (k : Nat) (u : Nat), (reachIter edges k [u]).Nodup := by
  intro k u
  cases k with
  | zero => simp [reachIter]
  | succ n => exact List.nodup_dedup _

theorem saturation_exists (g : Graph)
    (hwf : ∀ e ∈ g.edges, e.2 ∈ g.nodes) (u : Nat) :
    ∃ k ≤ g.nodes.length + 1,
      reachIter g.edges (k + 1) [u] ⊆ reachIter g.edges k [u] := by
  by_contra hcon
  push_neg at hcon
  have hgrow : ∀ m, m ≤ g.nodes.length + 2 →
      m + 1 ≤ (reachIter g.edges m [u]).length := by
    intro m
    induction m with
    | zero => intro _; simp [reachIter]
    | succ n ih =>
        intro hm
        have hn : n + 1 ≤ (reachIter g.edges n [u]).length :=
          ih (Nat.le_of_succ_le hm)
        obtain ⟨x, hx1, hx2⟩ : ∃ x, x ∈ reachIter g.edges (n + 1) [u] ∧
            x ∉ reachIter g.edges n [u] := by
          by_contra hall
          push_neg at hall
          exact hcon n (by omega) (fun y hy => hall y hy)
        have hsub : insert x (reachIter g.edges n [u]).toFinset ⊆
            (reachIter g.edges (n + 1) [u]).toFinset := by
          intro y hy
          rcases Finset.mem_insert.mp hy with h | h
          · exact List.mem_toFinset.mpr (h ▸ hx1)
          · exact List.mem_toFinset.mpr
              (self_subset_reachStep (List.mem_toFinset.mp h))
        have hcard := Finset.card_le_card hsub
        rw [Finset.card_insert_of_not_mem (fun hc => hx2 (List.mem_toFinset.mp hc))] at hcard
        rw [List.toFinset_card_of_nodup (reachIter_nodup _ n u)] at hcard
        rw [List.toFinset_card_of_nodup (reachIter_nodup _ (n + 1) u)] at hcard
        omega
  have hbound : (reachIter g.edges (g.nodes.length + 2) [u]).length ≤
      g.nodes.length + 1 := by
    have hnd := reachIter_nodup g.edges (g.nodes.length + 2) u
    have hsub : reachIter g.edges (g.nodes.length + 2) [u] ⊆ u :: g.nodes :=
      reachIter_subset_nodes g hwf _ u
    have := Finset.card_le_card (fun y hy =>
      List.mem_toFinset.mpr (hsub (List.mem_toFinset.mp hy)))
    rw [List.toFinset_card_of_nodup hnd] at this
    calc (reachIter g.edges (g.nodes.length + 2) [u]).length
        ≤ (u :: g.nodes).toFinset.card := this
      _ ≤ (u :: g.nodes).length := List.toFinset_card_le _
      _ = g.nodes.length + 1 := by simp
  have := hgrow (g.nodes.length + 2) le_rfl
  omega

theorem reach_closed (g : Graph)
    (hwf : ∀ e ∈ g.edges, e.2 ∈ g.nodes) (u : Nat) :
    ∀ v w, v ∈ reachIter g.edges (g.nodes.length + 1) [u] →
      (v, w) ∈ g.edges →
      w ∈ reachIter g.edges (g.nodes.length + 1) [u] := by
  intro v w hv he
  obtain ⟨k, hk, hsat⟩ := saturation_exists g hwf u
  have hw : w ∈ reachIter g.edges (g.nodes.length + 2) [u] :=
    mem_reachStep.mpr (Or.inr ⟨v, hv, he⟩)
  have hsatN : ∀ j, k ≤ j → reachIter g.edges j [u] ⊆ reachIter g.edges k [u] := by
    intro j hj
    induction hj with
    | refl => exact fun _ h => h
    | step _ ih =>
        intro y hy
        exact hsat (reachStep_subset ih hy)
  have h1 : w ∈ reachIter g.edges k [u] := hsatN _ (by omega) hw
  exact reachIter_mono g.edges [u] hk h1

theorem reach_complete (g : Graph)
    (hwf : ∀ e ∈ g.edges, e.2 ∈ g.nodes) {u v : Nat}
    (h : Relation.ReflTransGen (edgeRel g) u v) :
    v ∈ reachIter g.edges (g.nodes.length + 1) [u] := by
  induction h with
  | refl =>
      exact reachIter_mono g.edges [u] (Nat.zero_le _) (by simp [reachIter])
  | tail _ hstep ih =>
      exact reach_closed g hwf u _ _ ih hstep

theorem reachesB_iff (g : Graph)
    (hwf : ∀ e ∈ g.edges, e.2 ∈ g.nodes) (u v : Nat) :
    reachesB g u v = true ↔ Relation.ReflTransGen (edgeRel g) u v := by
  constructor
  · intro h
    simp only [reachesB, List.contains, List.elem_eq_mem, decide_eq_true_eq] at h
    exact reach_sound g _ u v h
  · intro h
    simp only [reachesB, List.contains, List.elem_eq_mem, decide_eq_true_eq]
    exact reach_complete g hwf h

theorem mem_sccOf (g : Graph)
    (hwf : ∀ e ∈ g.edges, e.2 ∈ g.nodes) (u v : Nat) :
    v ∈ sccOf g u ↔ v ∈ g.nodes ∧
      Relation.ReflTransGen (edgeRel g) u v ∧
      Relation.ReflTransGen (edgeRel g) v u := by
  simp only [sccOf, List.mem_filter, Bool.and_eq_true,
    reachesB_iff g hwf, and_assoc]

theorem sccOf_mem_sccs (g : Graph) (u : Nat) (hu : u ∈ g.nodes) :
    sccOf g u ∈ sccs g :=
  List.mem_dedup.mpr (List.mem_map_of_mem (sccOf g) hu)

theorem diffOf_idx {old : State} {idx : Nat} {pkg : Package} {d : Diff}
    (h : diffOf old idx pkg = some d) : d.Idx = idx := by
  unfold diffOf at h
  cases hl : old.nameToSrcIdx pkg.name with
  | none =>
      rw [hl] at h
      cases h
      rfl
  | some oldIdx =>
      rw [hl] at h
      simp only at h
      split at h
      · cases h
        rfl
      · cases h

theorem changedAux_idx_ge (old : State) :
    ∀ (l : List Package) (i : Nat) (d : Diff), d ∈ changedAux old l i → i ≤ d.Idx := by
  intro l
  induction l with
  | nil => intro i d hd; simp [changedAux] at hd
  | cons pkg rest ih =>
      intro i d hd
      unfold changedAux at hd
      cases hp : diffOf old i pkg with
      | none =>
          rw [hp] at hd
          exact le_trans (Nat.le_succ i) (ih (i + 1) d hd)
      | some d0 =>
          rw [hp] at hd
          rcases List.mem_cons.mp hd with h | h
          · rw [h, diffOf_idx hp]
          · exact le_trans (Nat.le_succ i) (ih (i + 1) d h)

theorem changedAux_filter (old : State) :
    ∀ (l : List Package) (i k : Nat),
      (changedAux old l i).filter (fun d => d.Idx == k) =
        (if i ≤ k then (l.get? (k - i)).bind (diffOf old k) else none).toList := by
  intro l
  induction l with
  | nil =>
      intro i k
      simp [changedAux, List.get?_nil]
  | cons pkg rest ih =>
      intro i k
      rcases Nat.lt_trichotomy k i with hk | hk | hk
      · rw [if_neg (by omega)]
        apply List.filter_eq_nil_iff.mpr
        intro d hd
        have := changedAux_idx_ge old (pkg :: rest) i d hd
        simp only [beq_iff_eq]
        omega
      · subst hk
        rw [if_pos le_rfl, Nat.sub_self, List.get?_cons_zero]
        have hrest : (changedAux old rest (k + 1)).filter (fun d => d.Idx == k) = [] := by
          apply List.filter_eq_nil_iff.mpr
          intro d hd
          have := changedAux_idx_ge old rest (k + 1) d hd
          simp only [beq_iff_eq]
          omega
        cases hp : diffOf old k pkg with
        | none =>
            simp only [changedAux, hp, Option.some_bind, Option.toList_none]
            exact hrest
        | some d =>
            simp only [changedAux, hp, List.filter_cons, Option.some_bind,
              Option.toList_some]
            rw [if_pos (by simp [diffOf_idx hp])]
            rw [hrest]
      · rw [if_pos (show i ≤ k from by omega)]
        rw [show k - i = (k - (i + 1)) + 1 from by omega, List.get?_cons_succ]
        cases hp : diffOf old i pkg with
        | none =>
            simp only [changedAux, hp]
            rw [ih (i + 1) k, if_pos (show i + 1 ≤ k from by omega)]
        | some d =>
            simp only [changedAux, hp, List.filter_cons]
            rw [if_neg (by simp only [beq_iff_eq, diffOf_idx hp]; omega)]
            rw [ih (i + 1) k, if_pos (show i + 1 ≤ k from by omega)]

theorem changedAux_map_idx_pairwise (old : State) :
    ∀ (l : List Package) (i : Nat),
      ((changedAux old l i).map Diff.Idx).Pairwise (· < ·) := by
  intro l
  induction l with
  | nil => intro i; simp [changedAux]
  | cons pkg rest ih =>
      intro i
      unfold changedAux
      cases hp : diffOf old i pkg with
      | none => exact ih (i + 1)
      | some d =>
          simp only [List.map_cons, List.pairwise_cons]
          refine ⟨?_, ih (i + 1)⟩
          intro x hx
          rcases List.mem_map.mp hx with ⟨d', hd', hdx⟩
          have h1 := changedAux_idx_ge old rest (i + 1) d' hd'
          rw [diffOf_idx hp, ← hdx]
          omega

/-- C3: `Changed` reports diffs in the new snapshot's package order
(the emitted new-snapshot positions are strictly increasing); for a
package whose name is absent from the old snapshot it emits exactly one
diff, with the old-side fields left at their zero defaults; for a
matched package it emits exactly one two-sided diff when release or
version differs, and no diff when both are identical. -/
theorem changed_characterization (old cur : State) (idx : Nat)
    (h : idx < cur.packages.length) :
    (old.nameToSrcIdx (cur.packages.get ⟨idx, h⟩).name = none →
      (Changed old cur).filter (fun d => d.Idx == idx) =
        [{ Idx := idx, RelNum := (cur.packages.get ⟨idx, h⟩).release,
           Ver := (cur.packages.get ⟨idx, h⟩).version }]) ∧
    (∀ oldIdx, old.nameToSrcIdx (cur.packages.get ⟨idx, h⟩).name = some oldIdx →
      (((old.packages.getD oldIdx emptyPackage).release ≠
          (cur.packages.get ⟨idx, h⟩).release ∨
        (old.packages.getD oldIdx emptyPackage).version ≠
          (cur.packages.get ⟨idx, h⟩).version) →
        (Changed old cur).filter (fun d => d.Idx == idx) =
          [{ Idx := idx, OldIdx := oldIdx,
             RelNum := (cur.packages.get ⟨idx, h⟩).release,
             OldRelNum := (old.packages.getD oldIdx emptyPackage).release,
             Ver := (cur.packages.get ⟨idx, h⟩).version,
             OldVer := (old.packages.getD oldIdx emptyPackage).version }]) ∧
      ((old.packages.getD oldIdx emptyPackage).release =
          (cur.packages.get ⟨idx, h⟩).release ∧
        (old.packages.getD oldIdx emptyPackage).version =
          (cur.packages.get ⟨idx, h⟩).version →
        (Changed old cur).filter (fun d => d.Idx == idx) = [])) ∧
    ((Changed old cur).map Diff.Idx).Pairwise (· < ·) := by
  have hbase : (Changed old cur).filter (fun d => d.Idx == idx) =
      (diffOf old idx (cur.packages.get ⟨idx, h⟩)).toList := by
    rw [Changed, changedAux_filter old cur.packages 0 idx,
      if_pos (Nat.zero_le idx), Nat.sub_zero, List.get?_eq_get h,
      Option.some_bind]
  refine ⟨?_, ?_, changedAux_map_idx_pairwise old cur.packages 0⟩
  · intro habs
    rw [hbase]
    unfold diffOf
    rw [habs]
    rfl
  · intro oldIdx hfound
    constructor
    · intro hdiffer
      rw [hbase]
      unfold diffOf
      rw [hfound]
      simp only [if_pos hdiffer]
      rfl
    · intro hsame
      rw [hbase]
      unfold diffOf
      rw [hfound]
      simp only
      rw [if_neg (by push_neg; exact hsame)]
      rfl

/-- Concrete packages and snapshots used by the witnesses. -/
def wPkgN : Package := ⟨"pkgN", "1.0", 1, []⟩

def wPkgBold : Package := ⟨"pkgB", "2.0", 3, []⟩

def wPkgBnew : Package := ⟨"pkgB", "2.1", 3, []⟩

def wPkgS : Package := ⟨"pkgS", "1.0", 1, []⟩

def wOld : State :=
  ⟨[wPkgBold, wPkgS],
fun s => if s = "pkgB" then some 0 else if s = "pkgS" then some 1 else none,
   ⟨[0, 1], []⟩⟩

def wNew : State :=
  ⟨[wPkgN, wPkgBnew, wPkgS],
fun s => if s = "pkgN" then some 0 else if s = "pkgB" then some 1
         else if s = "pkgS" then some 2 else none,
   ⟨[0, 1, 2], []⟩⟩

/-- Witness for C3 on concrete snapshots: `pkgN` is brand new (one
zero-old-side diff), `pkgB` changed version at the same release (one
two-sided diff), `pkgS` is unchanged (no diff), and the emitted
positions are strictly increasing. -/
theorem changed_characterization_witness :
    0 < wNew.packages.length ∧
    (Changed wOld wNew).filter (fun d => d.Idx == 0) =
      [{ Idx := 0, RelNum := 1, Ver := "1.0" }] ∧
    (Changed wOld wNew).filter (fun d => d.Idx == 1) =
      [{ Idx := 1, OldIdx := 0, RelNum := 3, OldRelNum := 3,
         Ver := "2.1", OldVer := "2.0" }] ∧
    (Changed wOld wNew).filter (fun d => d.Idx == 2) = [] ∧
    ((Changed wOld wNew).map Diff.Idx).Pairwise (· < ·) := by
  refine ⟨by decide, ?_, ?_, ?_, ?_⟩
  · exact ((changed_characterization wOld wNew 0 (by decide)).1
      (by decide)).trans (by decide)
  · exact (((changed_characterization wOld wNew 1 (by decide)).2.1 0
      (by decide)).1 (by decide)).trans (by decide)
  · exact ((changed_characterization wOld wNew 2 (by decide)).2.1 1
      (by decide)).2 (by decide)
  · exact (changed_characterization wOld wNew 0 (by decide)).2.2

/-- C10: the diff `Changed` emits for a package absent from the old
snapshot leaves `OldIdx`, `OldRelNum`, `OldVer` at the Go zero values
(0, 0, ""), and is therefore equal, as a value, to the diff emitted for
the same package matched against an old snapshot holding it at position
0 with release 0 and empty version: no diff field records whether an
old side existed. -/
theorem new_package_diff_zero_old_side (old oldZ : State) (idx : Nat)
    (pkg : Package)
    (h1 : old.nameToSrcIdx pkg.name = none)
    (h2 : oldZ.nameToSrcIdx pkg.name = some 0)
    (h3 : (oldZ.packages.getD 0 emptyPackage).release = 0)
    (h4 : (oldZ.packages.getD 0 emptyPackage).version = "")
    (h5 : pkg.release ≠ 0 ∨ pkg.version ≠ "") :
    diffOf old idx pkg =
      some { Idx := idx, OldIdx := 0, RelNum := pkg.release, OldRelNum := 0,
             Ver := pkg.version, OldVer := "" } ∧
    diffOf oldZ idx pkg = diffOf old idx pkg := by
  have habs : diffOf old idx pkg =
      some { Idx := idx, OldIdx := 0, RelNum := pkg.release, OldRelNum := 0,
             Ver := pkg.version, OldVer := "" } := by
    unfold diffOf
    rw [h1]
  refine ⟨habs, ?_⟩
  rw [habs]
  unfold diffOf
  rw [h2]
  simp only [h3, h4]
  rw [if_pos (by tauto)]

/-- The old snapshot holding only a zero-release, empty-version `pkgN`,
used to exhibit the C10 value collision. -/
def wOldZ : State :=
  ⟨[⟨"pkgN", "", 0, []⟩],
fun s => if s = "pkgN" then some 0 else none,
   ⟨[0], []⟩⟩

/-- Witness for C10: the brand-new `pkgN` diff against `wOld` equals,
as a value, the matched diff against `wOldZ`. -/
theorem new_package_diff_zero_old_side_witness :
    wOld.nameToSrcIdx wPkgN.name = none ∧
    wOldZ.nameToSrcIdx wPkgN.name = some 0 ∧
    (wOldZ.packages.getD 0 emptyPackage).release = 0 ∧
    (wOldZ.packages.getD 0 emptyPackage).version = "" ∧
    (wPkgN.release ≠ 0 ∨ wPkgN.version ≠ "") ∧
    (diffOf wOld 0 wPkgN =
      some { Idx := 0, OldIdx := 0, RelNum := wPkgN.release, OldRelNum := 0,
             Ver := wPkgN.version, OldVer := "" } ∧
     diffOf wOldZ 0 wPkgN = diffOf wOld 0 wPkgN) := by
  refine ⟨by decide, by decide, by decide, by decide, by decide, ?_⟩
  exact new_package_diff_zero_old_side wOld wOldZ 0 wPkgN (by decide) (by decide)
    (by decide) (by decide) (by decide)

/-- C7: any tpath with three or more `:`-separated fields, or whose
first field is not one of `src`, `bin`, `repo`, is rejected by
`LoadState` with the invalid-path error, so no loader is invoked. -/
theorem invalid_tpath_rejected (tpath : String)
    (h : 3 ≤ (stringsSplit tpath ':').length ∨
      (stringsSplit tpath ':').headD "" ∉ (["src", "bin", "repo"] : List String)) :
    LoadState tpath = .invalidTPath := by
  have hv : ValidTPath tpath = false := by
    unfold ValidTPath
    by_cases hl : (stringsSplit tpath ':').length > 2
    · rw [if_pos hl]
    · rw [if_neg hl]
      rcases h with h | h
      · omega
      · simp only [List.contains, List.elem_eq_mem]
        exact decide_eq_false h
  unfold LoadState
  rw [if_pos (by simp [hv])]

/-- Witness for C7: `qux:p` has a valid shape but an unrecognized kind
and is rejected. -/
theorem invalid_tpath_rejected_witness :
    (3 ≤ (stringsSplit "qux:p" ':').length ∨
      (stringsSplit "qux:p" ':').headD "" ∉ (["src", "bin", "repo"] : List String)) ∧
    LoadState "qux:p" = .invalidTPath :=
  ⟨by decide, invalid_tpath_rejected "qux:p" (by decide)⟩

/-- C8: the bare kinds `src`, `bin`, `repo` (no colon, no path) pass
`ValidTPath`, so `LoadState` skips the invalid-path branch and indexes
the non-existent second split field — the Go index-out-of-range panic. -/
theorem colonless_kind_passes_validation_then_panics :
    ValidTPath "src" = true ∧ ValidTPath "bin" = true ∧
    ValidTPath "repo" = true ∧
    LoadState "src" = .indexOutOfRange ∧ LoadState "bin" = .indexOutOfRange ∧
    LoadState "repo" = .indexOutOfRange := by
  decide

/-- The package at a new-snapshot position, `newState.Packages()[idx]`. -/
def pkgAt (st : State) (idx : Nat) : Package :=
  st.packages.getD idx emptyPackage

/-- The `bumped` list of the `runPush` classification loop: packages of
diffs classified new-release, in diff order. -/
def bumpedOf (st : State) (changes : List Diff) : List Package :=
  changes.filterMap fun d =>
    if d.IsNewRel then some (pkgAt st d.Idx) else none

/-- The `bset` rebuild-position set of the `runPush` classification
loop (Go `map[int]bool`, modelled as the list of its keys). -/
def bsetOf (changes : List Diff) : List Nat :=
  changes.filterMap fun d =>
    if d.IsNewRel then some d.Idx else none

/-- The `bad` list of the `runPush` classification loop: same release
but not the same version (the else-if branch after new-release). -/
def badOf (st : State) (changes : List Diff) : List Package :=
  changes.filterMap fun d =>
    if !d.IsNewRel && (d.IsSameRel && !d.IsSame) then some (pkgAt st d.Idx)
    else none

/-- The `outdated` list of the `runPush` classification loop: the
downgrade else-if branch. -/
def outdatedOf (st : State) (changes : List Diff) : List Package :=
  changes.filterMap fun d =>
    if !d.IsNewRel && !(d.IsSameRel && !d.IsSame) && d.IsDowngrade then
      some (pkgAt st d.Idx)
    else none

/-- Observable events of a `runPush` run, in emission order. -/
inductive Event where
  | warnAnomalies (names : List String)
  | warnOutdated (names : List String)
  | noUpdates
  | errUnresolved (report : List (String × List String))
  | willUpdate (names : List String)
  | buildOrder (names : List String)
  | cycles (components : List (List String))
  | published (name : String) (jobId : Nat)
  deriving DecidableEq, Repr

/-- How a `runPush` run ends: `exitFailure` is `os.Exit(1)`, `fatal` is
`waterlog.Fatalf`, `finished` is a normal return. -/
inductive Outcome where
  | exitFailure
  | fatal
  | finished
  deriving DecidableEq, Repr

/-- The bumped packages that fail dependency resolution against the
new snapshot, in order. -/
def unresolvedOf (st : State) (bumped : List Package) : List Package :=
  bumped.filter fun p => !(p.Resolve st.nameToSrcIdx)

/-- The consolidated unresolved-dependency report: each failing
candidate's name with its build-dependency names that do not resolve in
the new snapshot. -/
def unresolvedReport (st : State) (bumped : List Package) :
    List (String × List String) :=
  (unresolvedOf st bumped).map fun p =>
    (p.name, p.buildDeps.filter fun dep => (st.nameToSrcIdx dep).isNone)

/-- Package names at the given new-snapshot positions. -/
def namesAt (st : State) (idxs : List Nat) : List String :=
  idxs.map fun i => (pkgAt st i).name

/-- The printed cycle diagnosis: strongly connected components of the
lifted subgraph with at least two members, as package names (size-one
components are skipped by the reporting loop). -/
def cycleReport (st : State) (g : Graph) : List (List String) :=
  ((sccs g).filter fun c => 1 < c.length).map (namesAt st)

/-- The publish loop at the end of `runPush`: publish each ordered
package, stopping fatally at the first failure. -/
def publishLoop (st : State) (pub : Package → Except String Nat) :
    List Nat → List Event → List Event × Outcome
  | [], evs => (evs, .finished)
  | idx :: rest, evs =>
      match pub (pkgAt st idx) with
      | .error _ => (evs, .fatal)
      | .ok job =>
          publishLoop st pub rest (evs ++ [.published (pkgAt st idx).name job])

/-- The control flow of `runPush` after both snapshots have loaded
(src/cmd/push.go lines 52-184): diff, classify, anomaly gate, outdated
warning, nothing-to-do return, dependency-resolution gate, lift, order
or cycle diagnosis, then dry-run return or the publish loop. -/
def runPushCore (oldSt newSt : State) (force dryRun : Bool)
    (pub : Package → Except String Nat) : List Event × Outcome :=
  let changes := Changed oldSt newSt
  let bumped := bumpedOf newSt changes
  let bad := badOf newSt changes
  let outdated := outdatedOf newSt changes
  let ev0 : List Event :=
    if bad.isEmpty then [] else [.warnAnomalies (bad.map Package.name)]
  if !bad.isEmpty && !force then (ev0, .exitFailure) else
  let ev1 := ev0 ++
    (if outdated.isEmpty then [] else [.warnOutdated (outdated.map Package.name)])
  if bumped.isEmpty then (ev1 ++ [.noUpdates], .finished) else
  let unres := unresolvedOf newSt bumped
  let ev2 := ev1 ++
    (if unres.isEmpty then [] else [.errUnresolved (unresolvedReport newSt bumped)])
  if !unres.isEmpty && !force then (ev2, .exitFailure) else
  let ev3 := ev2 ++ [.willUpdate (bumped.map Package.name)]
  let lifted := LiftGraph newSt.depGraph fun i => (bsetOf changes).contains i
  match TopologicalSort lifted with
  | none => (ev3 ++ [.cycles (cycleReport newSt lifted)], .fatal)
  | some order =>
      let ev4 := ev3 ++ [.buildOrder (namesAt newSt order)]
      if dryRun then (ev4, .finished)
      else publishLoop newSt pub order ev4

theorem publishLoop_no_exitFailure (st : State) (pub : Package → Except String Nat) :
    ∀ (order : List Nat) (evs : List Event),
      (publishLoop st pub order evs).2 ≠ .exitFailure := by
  intro order
  induction order with
  | nil => intro evs h; cases h
  | cons idx rest ih =>
      intro evs
      unfold publishLoop
      cases pub (pkgAt st idx) with
      | error e => intro h; cases h
      | ok job => exact ih _

theorem publishLoop_trace_extends (st : State) (pub : Package → Except String Nat) :
    ∀ (order : List Nat) (evs : List Event),
      ∃ t, (publishLoop st pub order evs).1 = evs ++ t := by
  intro order
  induction order with
  | nil => intro evs; exact ⟨[], (List.append_nil evs).symm⟩
  | cons idx rest ih =>
      intro evs
      unfold publishLoop
      cases pub (pkgAt st idx) with
      | error e => exact ⟨[], (List.append_nil evs).symm⟩
      | ok job =>
          obtain ⟨t, ht⟩ := ih (evs ++ [.published (pkgAt st idx).name job])
          exact ⟨[.published (pkgAt st idx).name job] ++ t, by
            rw [ht, List.append_assoc]⟩

theorem mem_badOf {st : State} {changes : List Diff} {p : Package} :
    p ∈ badOf st changes ↔
      ∃ d ∈ changes, (!d.IsNewRel && (d.IsSameRel && !d.IsSame)) = true ∧
        p = pkgAt st d.Idx := by
  simp only [badOf, List.mem_filterMap]
  constructor
  · rintro ⟨d, hd, hf⟩
    by_cases hc : (!d.IsNewRel && (d.IsSameRel && !d.IsSame)) = true
    · rw [if_pos hc] at hf
      exact ⟨d, hd, hc, (Option.some_inj.mp hf).symm⟩
    · rw [if_neg hc] at hf
      cases hf
  · rintro ⟨d, hd, hc, hp⟩
    exact ⟨d, hd, by rw [if_pos hc, hp]⟩

theorem mem_bsetOf {changes : List Diff} {idx : Nat} :
    idx ∈ bsetOf changes ↔
      ∃ d ∈ changes, d.IsNewRel = true ∧ d.Idx = idx := by
  simp only [bsetOf, List.mem_filterMap]
  constructor
  · rintro ⟨d, hd, hf⟩
    by_cases hc : d.IsNewRel = true
    · rw [if_pos hc] at hf
      exact ⟨d, hd, hc, Option.some_inj.mp hf⟩
    · rw [if_neg hc] at hf
      cases hf
  · rintro ⟨d, hd, hc, hp⟩
    exact ⟨d, hd, by rw [if_pos hc, hp]⟩

theorem mem_bumpedOf {st : State} {changes : List Diff} {p : Package} :
    p ∈ bumpedOf st changes ↔
      ∃ d ∈ changes, d.IsNewRel = true ∧ p = pkgAt st d.Idx := by
  simp only [bumpedOf, List.mem_filterMap]
  constructor
  · rintro ⟨d, hd, hf⟩
    by_cases hc : d.IsNewRel = true
    · rw [if_pos hc] at hf
      exact ⟨d, hd, hc, (Option.some_inj.mp hf).symm⟩
    · rw [if_neg hc] at hf
      cases hf
  · rintro ⟨d, hd, hc, hp⟩
    exact ⟨d, hd, by rw [if_pos hc, hp]⟩

theorem changed_unique_at (old cur : State) {idx : Nat}
    (h : idx < cur.packages.length) {d0 d : Diff}
    (hd0 : diffOf old idx (cur.packages.get ⟨idx, h⟩) = some d0)
    (hd : d ∈ Changed old cur) (hidx : d.Idx = idx) : d = d0 := by
  have hbase : (Changed old cur).filter (fun d => d.Idx == idx) =
      (diffOf old idx (cur.packages.get ⟨idx, h⟩)).toList := by
    rw [Changed, changedAux_filter old cur.packages 0 idx,
      if_pos (Nat.zero_le idx), Nat.sub_zero, List.get?_eq_get h,
      Option.some_bind]
  have hmem : d ∈ (Changed old cur).filter (fun d => d.Idx == idx) :=
    List.mem_filter.mpr ⟨hd, by simp [hidx]⟩
  rw [hbase, hd0] at hmem
  simpa using hmem

theorem pkgAt_eq_get (st : State) {idx : Nat} (h : idx < st.packages.length) :
    pkgAt st idx = st.packages.get ⟨idx, h⟩ := by
  rw [pkgAt, List.getD_eq_getElem?_getD, List.getElem?_eq_getElem h]
  rfl

theorem publishLoop_cons_extends (st : State) (pub : Package → Except String Nat)
    (order : List Nat) (ev : Event) (evs : List Event) :
    ∃ t, (publishLoop st pub order (ev :: evs)).1 = ev :: t := by
  obtain ⟨t, ht⟩ := publishLoop_trace_extends st pub order (ev :: evs)
  exact ⟨evs ++ t, by rw [ht]; simp⟩

theorem runPushCore_anomaly_first (oldSt newSt : State) (dryRun : Bool)
    (pub : Package → Except String Nat)
    (hbadne : (badOf newSt (Changed oldSt newSt)).isEmpty = false) :
    ∃ t, (runPushCore oldSt newSt true dryRun pub).1 =
      [.warnAnomalies ((badOf newSt (Changed oldSt newSt)).map Package.name)] ++ t := by
  unfold runPushCore
  simp only [hbadne, Bool.not_true, Bool.and_false, Bool.not_false,
    Bool.false_eq_true, if_false]
  repeat' split
  all_goals first
    | exact ⟨_, rfl⟩
    | exact publishLoop_cons_extends _ _ _ _ _

/-- C5: a matched package whose release is unchanged and whose version
differs is reported by name among the anomalies and excluded from the
rebuild set; with `--force` unset the run exits non-zero with only that
warning emitted (so before dependency checking, lifting, ordering, or
publishing); with `--force` set the warning is still among the emitted
events as the run continues. -/
theorem anomaly_reported_excluded_blocks (oldSt newSt : State)
    (idx oldIdx : Nat) (h : idx < newSt.packages.length)
    (hfound : oldSt.nameToSrcIdx (newSt.packages.get ⟨idx, h⟩).name = some oldIdx)
    (hrel : (oldSt.packages.getD oldIdx emptyPackage).release =
      (newSt.packages.get ⟨idx, h⟩).release)
    (hver : (oldSt.packages.getD oldIdx emptyPackage).version ≠
      (newSt.packages.get ⟨idx, h⟩).version) :
    (newSt.packages.get ⟨idx, h⟩).name ∈
      (badOf newSt (Changed oldSt newSt)).map Package.name ∧
    idx ∉ bsetOf (Changed oldSt newSt) ∧
    (∀ dryRun pub,
      runPushCore oldSt newSt false dryRun pub =
        ([.warnAnomalies ((badOf newSt (Changed oldSt newSt)).map Package.name)],
          .exitFailure)) ∧
    (∀ dryRun pub,
      .warnAnomalies ((badOf newSt (Changed oldSt newSt)).map Package.name) ∈
        (runPushCore oldSt newSt true dryRun pub).1) := by
  set pkg := newSt.packages.get ⟨idx, h⟩ with hpkg
  set oldPkg := oldSt.packages.getD oldIdx emptyPackage with holdPkg
  have hd0 : diffOf oldSt idx pkg =
      some (Diff.mk idx oldIdx pkg.release oldPkg.release pkg.version
        oldPkg.version) := by
    unfold diffOf
    rw [hfound]
    simp only
    rw [if_pos (Or.inr hver)]
  have hbase : (Changed oldSt newSt).filter (fun d => d.Idx == idx) =
      (diffOf oldSt idx pkg).toList := by
    rw [Changed, changedAux_filter oldSt newSt.packages 0 idx,
      if_pos (Nat.zero_le idx), Nat.sub_zero, List.get?_eq_get h,
      Option.some_bind]
  have hd0mem : Diff.mk idx oldIdx pkg.release oldPkg.release pkg.version
      oldPkg.version ∈ Changed oldSt newSt := by
    apply List.mem_of_mem_filter (p := fun d => d.Idx == idx)
    rw [hbase, hd0]
    exact List.mem_singleton_self _
  have hcond : (!(Diff.mk idx oldIdx pkg.release oldPkg.release pkg.version
        oldPkg.version).IsNewRel &&
      ((Diff.mk idx oldIdx pkg.release oldPkg.release pkg.version
        oldPkg.version).IsSameRel &&
       !(Diff.mk idx oldIdx pkg.release oldPkg.release pkg.version
        oldPkg.version).IsSame)) = true := by
    simp [Diff.IsNewRel, Diff.IsSameRel, Diff.IsSame, hrel, hver]
  have hbadmem : pkg ∈ badOf newSt (Changed oldSt newSt) := by
    refine mem_badOf.mpr ⟨_, hd0mem, hcond, ?_⟩
    exact (pkgAt_eq_get newSt h).symm
  have hbadne : (badOf newSt (Changed oldSt newSt)).isEmpty = false :=
    List.isEmpty_eq_false.mpr (List.ne_nil_of_mem hbadmem)
  refine ⟨List.mem_map_of_mem Package.name hbadmem, ?_, ?_, ?_⟩
  · intro hc
    obtain ⟨d, hd, hnewrel, hidx⟩ := mem_bsetOf.mp hc
    have hdeq := changed_unique_at oldSt newSt h hd0 hd hidx
    rw [hdeq] at hnewrel
    simp [Diff.IsNewRel, hrel] at hnewrel
  · intro dryRun pub
    unfold runPushCore
    simp [hbadne]
  · intro dryRun pub
    obtain ⟨t, ht⟩ := runPushCore_anomaly_first oldSt newSt dryRun pub hbadne
    rw [ht]
    exact List.mem_append_left _ (List.mem_singleton_self _)

/-- Witness for C5 on the scenario-B snapshots: `pkgB` keeps release 3
but moves from version 2.0 to 2.1. -/
theorem anomaly_reported_excluded_blocks_witness :
    (wOld.nameToSrcIdx (wNew.packages.get ⟨1, by decide⟩).name = some 0) ∧
    ((wOld.packages.getD 0 emptyPackage).release =
      (wNew.packages.get ⟨1, by decide⟩).release) ∧
    ((wOld.packages.getD 0 emptyPackage).version ≠
      (wNew.packages.get ⟨1, by decide⟩).version) ∧
    ((wNew.packages.get ⟨1, by decide⟩).name ∈
      (badOf wNew (Changed wOld wNew)).map Package.name ∧
    1 ∉ bsetOf (Changed wOld wNew) ∧
    (∀ dryRun pub,
      runPushCore wOld wNew false dryRun pub =
        ([.warnAnomalies ((badOf wNew (Changed wOld wNew)).map Package.name)],
          .exitFailure)) ∧
    (∀ dryRun pub,
      .warnAnomalies ((badOf wNew (Changed wOld wNew)).map Package.name) ∈
        (runPushCore wOld wNew true dryRun pub).1)) :=
  ⟨by decide, by decide, by decide,
    anomaly_reported_excluded_blocks wOld wNew 1 0 (by decide) (by decide)
      (by decide) (by decide)⟩

theorem runPushCore_unresolved_mem (oldSt newSt : State) (force dryRun : Bool)
    (pub : Package → Except String Nat)
    (hbadE : (badOf newSt (Changed oldSt newSt)).isEmpty = true)
    (hbumpE : (bumpedOf newSt (Changed oldSt newSt)).isEmpty = false)
    (hunresE : (unresolvedOf newSt (bumpedOf newSt (Changed oldSt newSt))).isEmpty = false) :
    Event.errUnresolved (unresolvedReport newSt (bumpedOf newSt (Changed oldSt newSt))) ∈
      (runPushCore oldSt newSt force dryRun pub).1 := by
  unfold runPushCore
  simp only [hbadE, hbumpE, hunresE, Bool.not_true, Bool.false_and,
    Bool.false_eq_true, if_false]
  split
  · simp
  · repeat' split
    all_goals try simp
    all_goals
      obtain ⟨t, ht⟩ := publishLoop_trace_extends newSt pub _ _
      rw [ht]
      simp

theorem runPushCore_force_no_exitFailure (oldSt newSt : State) (dryRun : Bool)
    (pub : Package → Except String Nat) :
    (runPushCore oldSt newSt true dryRun pub).2 ≠ .exitFailure := by
  unfold runPushCore
  simp only [Bool.not_true, Bool.and_false, Bool.false_eq_true, if_false]
  repeat' split
  all_goals try exact publishLoop_no_exitFailure newSt pub _ _
  all_goals intro hc
  all_goals cases hc

/-- C6: dependency resolution is checked only over the rebuild
candidates against the new snapshot; the failing candidates are
collected into one batch report pairing each candidate's name with its
build-dependency names that do not resolve in the new snapshot; the
consolidated report is emitted as one event whenever any candidate
fails, and the run exits non-zero for this finding exactly when
`--force` is unset. -/
theorem unresolved_deps_batch_and_gate (oldSt newSt : State)
    (hbad : badOf newSt (Changed oldSt newSt) = [])
    (hbump : bumpedOf newSt (Changed oldSt newSt) ≠ []) :
    (∀ p ∈ bumpedOf newSt (Changed oldSt newSt),
      p.Resolve newSt.nameToSrcIdx = false →
      (p.name, p.buildDeps.filter fun dep => (newSt.nameToSrcIdx dep).isNone) ∈
        unresolvedReport newSt (bumpedOf newSt (Changed oldSt newSt))) ∧
    (∀ x ∈ unresolvedReport newSt (bumpedOf newSt (Changed oldSt newSt)),
      ∃ p ∈ bumpedOf newSt (Changed oldSt newSt),
        p.Resolve newSt.nameToSrcIdx = false ∧
        x = (p.name,
          p.buildDeps.filter fun dep => (newSt.nameToSrcIdx dep).isNone)) ∧
    (unresolvedOf newSt (bumpedOf newSt (Changed oldSt newSt)) ≠ [] →
      ∀ force dryRun pub,
        Event.errUnresolved
            (unresolvedReport newSt (bumpedOf newSt (Changed oldSt newSt))) ∈
          (runPushCore oldSt newSt force dryRun pub).1) ∧
    (unresolvedOf newSt (bumpedOf newSt (Changed oldSt newSt)) ≠ [] →
      ∀ dryRun pub,
        (runPushCore oldSt newSt false dryRun pub).2 = .exitFailure) ∧
    (∀ dryRun pub,
      (runPushCore oldSt newSt true dryRun pub).2 ≠ .exitFailure) := by
  have hbadE : (badOf newSt (Changed oldSt newSt)).isEmpty = true := by
    rw [hbad]
    rfl
  have hbumpE : (bumpedOf newSt (Changed oldSt newSt)).isEmpty = false :=
    List.isEmpty_eq_false.mpr hbump
  refine ⟨?_, ?_, ?_, ?_, ?_⟩
  · intro p hp hres
    apply List.mem_map_of_mem
    exact List.mem_filter.mpr ⟨hp, by simp [hres]⟩
  · intro x hx
    obtain ⟨p, hpf, hxe⟩ := List.mem_map.mp hx
    obtain ⟨hp, hres⟩ := List.mem_filter.mp hpf
    refine ⟨p, hp, ?_, hxe.symm⟩
    simpa using hres
  · intro hne force dryRun pub
    exact runPushCore_unresolved_mem oldSt newSt force dryRun pub hbadE hbumpE
      (List.isEmpty_eq_false.mpr hne)
  · intro hne dryRun pub
    have hunresE :
        (unresolvedOf newSt (bumpedOf newSt (Changed oldSt newSt))).isEmpty = false :=
      List.isEmpty_eq_false.mpr hne
    unfold runPushCore
    simp [hbadE, hbumpE, hunresE]
  · intro dryRun pub
    exact runPushCore_force_no_exitFailure oldSt newSt dryRun pub

/-- The empty old snapshot used by several witnesses. -/
def wOldE : State := ⟨[], fun _ => none, ⟨[], []⟩⟩

/-- The scenario-C new snapshot: `pkgC` declares a build dependency
`pkgD` that resolves to nothing. -/
def wNewU : State :=
  ⟨[⟨"pkgC", "1.0", 1, ["pkgD"]⟩],
fun s => if s = "pkgC" then some 0 else none,
   ⟨[0], []⟩⟩

/-- A publish collaborator that always succeeds with job id 7. -/
def wPub : Package → Except String Nat := fun _ => .ok 7

/-- Witness for C6 on the scenario-C snapshots: `pkgC` is a rebuild
candidate whose dependency `pkgD` does not resolve. -/
theorem unresolved_deps_batch_and_gate_witness :
    badOf wNewU (Changed wOldE wNewU) = [] ∧
    bumpedOf wNewU (Changed wOldE wNewU) ≠ [] ∧
    unresolvedOf wNewU (bumpedOf wNewU (Changed wOldE wNewU)) ≠ [] ∧
    unresolvedReport wNewU (bumpedOf wNewU (Changed wOldE wNewU)) =
      [("pkgC", ["pkgD"])] ∧
    ((∀ p ∈ bumpedOf wNewU (Changed wOldE wNewU),
      p.Resolve wNewU.nameToSrcIdx = false →
      (p.name, p.buildDeps.filter fun dep => (wNewU.nameToSrcIdx dep).isNone) ∈
        unresolvedReport wNewU (bumpedOf wNewU (Changed wOldE wNewU))) ∧
    (∀ x ∈ unresolvedReport wNewU (bumpedOf wNewU (Changed wOldE wNewU)),
      ∃ p ∈ bumpedOf wNewU (Changed wOldE wNewU),
        p.Resolve wNewU.nameToSrcIdx = false ∧
        x = (p.name,
          p.buildDeps.filter fun dep => (wNewU.nameToSrcIdx dep).isNone)) ∧
    (unresolvedOf wNewU (bumpedOf wNewU (Changed wOldE wNewU)) ≠ [] →
      ∀ force dryRun pub,
        Event.errUnresolved
            (unresolvedReport wNewU (bumpedOf wNewU (Changed wOldE wNewU))) ∈
          (runPushCore wOldE wNewU force dryRun pub).1) ∧
    (unresolvedOf wNewU (bumpedOf wNewU (Changed wOldE wNewU)) ≠ [] →
      ∀ dryRun pub,
        (runPushCore wOldE wNewU false dryRun pub).2 = .exitFailure) ∧
    (∀ dryRun pub,
      (runPushCore wOldE wNewU true dryRun pub).2 ≠ .exitFailure)) :=
  ⟨by decide, by decide, by decide, by decide,
    unresolved_deps_batch_and_gate wOldE wNewU (by decide) (by decide)⟩

/-- The lifted subgraph of a run: the new snapshot's dependency graph
restricted to the rebuild positions. -/
def liftedOf (oldSt newSt : State) : Graph :=
  LiftGraph newSt.depGraph fun i => (bsetOf (Changed oldSt newSt)).contains i

/-- C4: whenever topological sorting of the lifted subgraph fails, the
run ends fatally for either value of `--force`, after emitting the
cycle diagnosis; the diagnosis lists, by package name, exactly the
strongly connected components of the lifted subgraph with at least two
members (size-one components are never reported), where the components
are genuine mutual-reachability classes. -/
theorem cycle_failure_fatal_and_diagnosed (oldSt newSt : State)
    (hwf : GraphWF newSt.depGraph)
    (hbad : badOf newSt (Changed oldSt newSt) = [])
    (hbump : bumpedOf newSt (Changed oldSt newSt) ≠ [])
    (hunres : unresolvedOf newSt (bumpedOf newSt (Changed oldSt newSt)) = [])
    (hsort : TopologicalSort (liftedOf oldSt newSt) = none) :
    (∀ force dryRun pub,
      (runPushCore oldSt newSt force dryRun pub).2 = .fatal ∧
      Event.cycles (cycleReport newSt (liftedOf oldSt newSt)) ∈
        (runPushCore oldSt newSt force dryRun pub).1) ∧
    (∀ c ∈ cycleReport newSt (liftedOf oldSt newSt), 2 ≤ c.length) ∧
    (∀ u ∈ (liftedOf oldSt newSt).nodes,
      2 ≤ (sccOf (liftedOf oldSt newSt) u).length →
      namesAt newSt (sccOf (liftedOf oldSt newSt) u) ∈
        cycleReport newSt (liftedOf oldSt newSt)) ∧
    (∀ u v, v ∈ sccOf (liftedOf oldSt newSt) u ↔
      v ∈ (liftedOf oldSt newSt).nodes ∧
      Relation.ReflTransGen (edgeRel (liftedOf oldSt newSt)) u v ∧
      Relation.ReflTransGen (edgeRel (liftedOf oldSt newSt)) v u) := by
  have hbadE : (badOf newSt (Changed oldSt newSt)).isEmpty = true := by
    rw [hbad]
    rfl
  have hbumpE : (bumpedOf newSt (Changed oldSt newSt)).isEmpty = false :=
    List.isEmpty_eq_false.mpr hbump
  have hunresE :
      (unresolvedOf newSt (bumpedOf newSt (Changed oldSt newSt))).isEmpty = true := by
    rw [hunres]
    rfl
  have hsort' : TopologicalSort (LiftGraph newSt.depGraph fun i =>
      (bsetOf (Changed oldSt newSt)).contains i) = none := hsort
  have hlwf := liftGraph_wf newSt.depGraph
    (fun i => (bsetOf (Changed oldSt newSt)).contains i) hwf
  refine ⟨?_, ?_, ?_, ?_⟩
  · intro force dryRun pub
    unfold runPushCore
    simp only [hbadE, hbumpE, hunresE, hsort', Bool.not_true, Bool.false_and,
      Bool.false_eq_true, if_false]
    constructor
    · trivial
    · simp [liftedOf]
  · intro c hc
    obtain ⟨comp, hcomp, hceq⟩ := List.mem_map.mp hc
    have hlen := (List.mem_filter.mp hcomp).2
    simp only [decide_eq_true_eq] at hlen
    rw [← hceq]
    simp only [namesAt, List.length_map]
    omega
  · intro u hu hlen
    apply List.mem_map_of_mem
    apply List.mem_filter.mpr
    refine ⟨sccOf_mem_sccs _ u hu, by simp; omega⟩
  · intro u v
    exact mem_sccOf (liftedOf oldSt newSt)
      (fun e he => (hlwf.1 e he).2) u v

/-- The scenario-E new snapshot: `pkgG` and `pkgH` depend on each
other, a two-cycle in the dependency graph. -/
def wNewC : State :=
  ⟨[⟨"pkgG", "1.0", 1, ["pkgH"]⟩, ⟨"pkgH", "1.0", 1, ["pkgG"]⟩],
fun s => if s = "pkgG" then some 0 else if s = "pkgH" then some 1 else none,
   ⟨[0, 1], [(0, 1), (1, 0)]⟩⟩

/-- Witness for C4 on the scenario-E snapshots: the two-cycle
`pkgG <-> pkgH` defeats the sort; the run is fatal and the single
reported component is `[pkgG, pkgH]`. -/
theorem cycle_failure_fatal_and_diagnosed_witness :
    GraphWF wNewC.depGraph ∧
    badOf wNewC (Changed wOldE wNewC) = [] ∧
    bumpedOf wNewC (Changed wOldE wNewC) ≠ [] ∧
    unresolvedOf wNewC (bumpedOf wNewC (Changed wOldE wNewC)) = [] ∧
    TopologicalSort (liftedOf wOldE wNewC) = none ∧
    cycleReport wNewC (liftedOf wOldE wNewC) = [["pkgG", "pkgH"]] ∧
    runPushCore wOldE wNewC false true wPub =
      ([.willUpdate ["pkgG", "pkgH"], .cycles [["pkgG", "pkgH"]]], .fatal) ∧
    ((∀ force dryRun pub,
      (runPushCore wOldE wNewC force dryRun pub).2 = .fatal ∧
      Event.cycles (cycleReport wNewC (liftedOf wOldE wNewC)) ∈
        (runPushCore wOldE wNewC force dryRun pub).1) ∧
    (∀ c ∈ cycleReport wNewC (liftedOf wOldE wNewC), 2 ≤ c.length) ∧
    (∀ u ∈ (liftedOf wOldE wNewC).nodes,
      2 ≤ (sccOf (liftedOf wOldE wNewC) u).length →
      namesAt wNewC (sccOf (liftedOf wOldE wNewC) u) ∈
        cycleReport wNewC (liftedOf wOldE wNewC)) ∧
    (∀ u v, v ∈ sccOf (liftedOf wOldE wNewC) u ↔
      v ∈ (liftedOf wOldE wNewC).nodes ∧
      Relation.ReflTransGen (edgeRel (liftedOf wOldE wNewC)) u v ∧
      Relation.ReflTransGen (edgeRel (liftedOf wOldE wNewC)) v u)) := by
  have hwf : GraphWF wNewC.depGraph := by
    constructor
    · decide
    · decide
  exact ⟨hwf, by decide, by decide, by decide, by decide, by decide, by decide,
    cycle_failure_fatal_and_diagnosed wOldE wNewC hwf (by decide) (by decide)
      (by decide) (by decide)⟩

/-- The default of the `--dry-run` / `-n` flag registered in `init`
(src/cmd/push.go line 31). -/
def defaultDryRun : Bool := true

/-- The scenario-D new snapshot: `pkgE` depends on `pkgF`, both brand
new. -/
def wNewD : State :=
  ⟨[⟨"pkgE", "1.0", 1, ["pkgF"]⟩, ⟨"pkgF", "1.0", 1, []⟩],
fun s => if s = "pkgE" then some 0 else if s = "pkgF" then some 1 else none,
   ⟨[0, 1], [(0, 1)]⟩⟩

/-- C9: `--dry-run` defaults to true; with it set, no run ever emits a
publish event and the result does not depend on the publish
collaborator at all, while a run that reaches a successful sort still
reports the computed build order and finishes normally. -/
theorem dry_run_plans_without_publishing (oldSt newSt : State)
    (order : List Nat) (force : Bool) (pub : Package → Except String Nat)
    (hbad : badOf newSt (Changed oldSt newSt) = [])
    (hbump : bumpedOf newSt (Changed oldSt newSt) ≠ [])
    (hunres : unresolvedOf newSt (bumpedOf newSt (Changed oldSt newSt)) = [])
    (hsort : TopologicalSort (liftedOf oldSt newSt) = some order) :
    defaultDryRun = true ∧
    (∀ (o n : State) (f : Bool) (p : Package → Except String Nat)
      (name : String) (job : Nat),
      Event.published name job ∉ (runPushCore o n f true p).1) ∧
    (∀ (o n : State) (f : Bool) (p q : Package → Except String Nat),
      runPushCore o n f true p = runPushCore o n f true q) ∧
    runPushCore oldSt newSt force true pub =
      ((if (outdatedOf newSt (Changed oldSt newSt)).isEmpty then []
        else [.warnOutdated ((outdatedOf newSt (Changed oldSt newSt)).map Package.name)]) ++
        [.willUpdate ((bumpedOf newSt (Changed oldSt newSt)).map Package.name),
         .buildOrder (namesAt newSt order)], .finished) := by
  have hbadE : (badOf newSt (Changed oldSt newSt)).isEmpty = true := by
    rw [hbad]
    rfl
  have hbumpE : (bumpedOf newSt (Changed oldSt newSt)).isEmpty = false :=
    List.isEmpty_eq_false.mpr hbump
  have hunresE :
      (unresolvedOf newSt (bumpedOf newSt (Changed oldSt newSt))).isEmpty = true := by
    rw [hunres]
    rfl
  have hsort' : TopologicalSort (LiftGraph newSt.depGraph fun i =>
      (bsetOf (Changed oldSt newSt)).contains i) = some order := hsort
  refine ⟨rfl, ?_, ?_, ?_⟩
  · intro o n f p name job
    unfold runPushCore
    simp only [Bool.not_true]
    cases htop : TopologicalSort (LiftGraph n.depGraph fun i =>
        (bsetOf (Changed o n)).contains i) with
    | none => split_ifs <;> simp_all
    | some order2 => split_ifs <;> simp_all
  · intro o n f p q
    unfold runPushCore
    simp
  · have hfun : (fun i => (bsetOf (Changed oldSt newSt)).contains i) =
        (fun i => decide (i ∈ bsetOf (Changed oldSt newSt))) := by
      funext i
      simp [List.contains, List.elem_eq_mem]
    have hsort2 := hsort'
    rw [hfun] at hsort2
    unfold runPushCore
    simp [hbadE, hbumpE, hunresE, hsort2]

/-- Witness for C9 on the scenario-D snapshots: the plan `[pkgF, pkgE]`
is reported and nothing is published. -/
theorem dry_run_plans_without_publishing_witness :
    badOf wNewD (Changed wOldE wNewD) = [] ∧
    bumpedOf wNewD (Changed wOldE wNewD) ≠ [] ∧
    unresolvedOf wNewD (bumpedOf wNewD (Changed wOldE wNewD)) = [] ∧
    TopologicalSort (liftedOf wOldE wNewD) = some [1, 0] ∧
    runPushCore wOldE wNewD false true wPub =
      ([.willUpdate ["pkgE", "pkgF"], .buildOrder ["pkgF", "pkgE"]], .finished) ∧
    (defaultDryRun = true ∧
    (∀ (o n : State) (f : Bool) (p : Package → Except String Nat)
      (name : String) (job : Nat),
      Event.published name job ∉ (runPushCore o n f true p).1) ∧
    (∀ (o n : State) (f : Bool) (p q : Package → Except String Nat),
      runPushCore o n f true p = runPushCore o n f true q) ∧
    runPushCore wOldE wNewD false true wPub =
      ((if (outdatedOf wNewD (Changed wOldE wNewD)).isEmpty then []
        else [.warnOutdated ((outdatedOf wNewD (Changed wOldE wNewD)).map Package.name)]) ++
        [.willUpdate ((bumpedOf wNewD (Changed wOldE wNewD)).map Package.name),
         .buildOrder (namesAt wNewD [1, 0])], .finished)) :=
  ⟨by decide, by decide, by decide, by decide, by decide,
    dry_run_plans_without_publishing wOldE wNewD [1, 0] false wPub (by decide)
      (by decide) (by decide) (by decide)⟩

end Autobuild
